import Mathlib

/-!
Verification development for the `cgc` block-clustering repository.

The Python sources are shallowly embedded over exact rationals (`ℚ`).
Floating-point special values (NaN and the infinities), which two of the
claims are about, are tracked by the explicit `FP` type below, whose
arithmetic mirrors IEEE-754 special-value propagation for the operations
the code performs; finite values are carried exactly as rationals.
The external library logarithm (`np.log` / `da.log`) is modelled by an
arbitrary parameter function `lgq : ℚ → ℚ` giving the value of the
logarithm on positive arguments; every theorem quantifies over `lgq`,
and concrete evaluations pick a `lgq` that agrees with the real
logarithm on every argument actually reached (all of them `log 1 = 0`).
-/

namespace Cgc

/-- IEEE-754-style scalar: a finite value (carried exactly), `+inf`,
`-inf`, or `NaN`. -/
inductive FP where
  | num : ℚ → FP
  | pinf : FP
  | ninf : FP
  | nan : FP
deriving DecidableEq

namespace FP

/-- Negation. -/
def neg : FP → FP
  | num q => num (-q)
  | pinf => ninf
  | ninf => pinf
  | nan => nan

/-- Addition with IEEE special-value propagation. -/
def add : FP → FP → FP
  | nan, _ => nan
  | _, nan => nan
  | pinf, ninf => nan
  | ninf, pinf => nan
  | pinf, _ => pinf
  | _, pinf => pinf
  | ninf, _ => ninf
  | _, ninf => ninf
  | num a, num b => num (a + b)

/-- Subtraction. -/
def sub (a b : FP) : FP := a.add b.neg

/-- Multiplication with IEEE special-value propagation
(`0 * inf = NaN`). -/
def mul : FP → FP → FP
  | nan, _ => nan
  | _, nan => nan
  | num a, num b => num (a * b)
  | num a, pinf => if a = 0 then nan else if 0 < a then pinf else ninf
  | num a, ninf => if a = 0 then nan else if 0 < a then ninf else pinf
  | pinf, num b => if b = 0 then nan else if 0 < b then pinf else ninf
  | ninf, num b => if b = 0 then nan else if 0 < b then ninf else pinf
  | pinf, pinf => pinf
  | pinf, ninf => ninf
  | ninf, pinf => ninf
  | ninf, ninf => pinf

/-- Division with IEEE special-value propagation
(`x / 0` gives `NaN` for `x = 0` and a signed infinity otherwise). -/
def div : FP → FP → FP
  | nan, _ => nan
  | _, nan => nan
  | num a, num b =>
      if b = 0 then (if a = 0 then nan else if 0 < a then pinf else ninf)
      else num (a / b)
  | num _, pinf => num 0
  | num _, ninf => num 0
  | pinf, num b => if 0 ≤ b then pinf else ninf
  | ninf, num b => if 0 ≤ b then ninf else pinf
  | pinf, _ => nan
  | ninf, _ => nan

/-- The library logarithm: `NaN` on negative arguments, `-inf` at zero,
and on positive rationals the (externally supplied) value `lgq q`. -/
def log (lgq : ℚ → ℚ) : FP → FP
  | num q => if 0 < q then num (lgq q) else if q = 0 then ninf else nan
  | pinf => pinf
  | ninf => nan
  | nan => nan

/-- A value is finite when it is `num q` for some rational `q`:
neither `NaN` nor an infinity. -/
def isFinite : FP → Prop
  | num _ => True
  | _ => False

instance : DecidablePred isFinite := by
  intro a
  cases a <;> simp [isFinite] <;> infer_instance

end FP

/-- Sum of a list of `FP` values (`np.sum` over an array slice). -/
def fpsum (l : List FP) : FP := l.foldr FP.add (FP.num 0)

theorem fpsum_map_num {α : Type} (l : List α) (f : α → ℚ) :
    fpsum (l.map fun x => FP.num (f x)) = FP.num (l.map f).sum := by
  induction l with
  | nil => rfl
  | cons x xs ih => simp [fpsum, FP.add, List.foldr] at ih ⊢; simp [ih, FP.add]

/-- Row-major list of all index pairs of a `b × c` array slice: the axes
summed over by `np.sum(..., axis=(1, 2))` and by the `jk` contraction in
`np.einsum` below. -/
def pairList (b c : ℕ) : List (Fin b × Fin c) :=
  (List.finRange b).flatMap fun j => (List.finRange c).map fun k => (j, k)

/-- `src/cgc/triclustering_numpy.py`, `_distance(Z, Y, epsilon)`:
`Y = Y + epsilon; return Y.sum(axis=(1,2)) - np.einsum('ijk,ljk->il', Z,
np.log(Y))`, computed over the `FP` scalar model (inputs are finite
arrays, modelled as rational tensors). -/
def distanceFP {a b c t : ℕ} (lgq : ℚ → ℚ)
    (Z : Fin a → Fin b → Fin c → ℚ) (Y : Fin t → Fin b → Fin c → ℚ)
    (eps : ℚ) (i : Fin a) (l : Fin t) : FP :=
  FP.sub (fpsum ((pairList b c).map fun p => FP.num (Y l p.1 p.2 + eps)))
    (fpsum ((pairList b c).map fun p =>
      FP.mul (FP.num (Z i p.1 p.2)) (FP.log lgq (FP.num (Y l p.1 p.2 + eps)))))

theorem pairList_sum {b c : ℕ} (f : Fin b × Fin c → ℚ) :
    ((pairList b c).map f).sum = ∑ j : Fin b, ∑ k : Fin c, f (j, k) := by
  simp [pairList, Fin.sum_univ_def, List.map_flatMap, List.flatMap,
    List.sum_flatten, Function.comp_def]

theorem FP.sub_num (x y : ℚ) : FP.sub (FP.num x) (FP.num y) = FP.num (x - y) := by
  simp [FP.sub, FP.neg, FP.add, sub_eq_add_neg]

/-- C3 (counterexample): with `Z = 1 ≥ 0` and `epsilon = 1/2 > 0` but a
negative profile entry `Y = -1`, the logarithm receives `-1/2` and the
kernel output is `NaN`: the claim's hypotheses (`Z >= 0`, `epsilon > 0`)
do not exclude NaN from the output of `_distance`. -/
theorem c3_distance_nan_counterexample :
    (∀ i j k : Fin 1, (0:ℚ) ≤ (fun _ _ _ => (1:ℚ)) i j k) ∧ (0:ℚ) < 1/2 ∧
    distanceFP (fun _ => 0) ((fun _ _ _ => (1:ℚ)) : Fin 1 → Fin 1 → Fin 1 → ℚ)
      ((fun _ _ _ => (-1:ℚ)) : Fin 1 → Fin 1 → Fin 1 → ℚ)
      (1/2) 0 0 = FP.nan := by
  refine ⟨fun _ _ _ => by norm_num, by norm_num, ?_⟩
  norm_num [distanceFP, pairList, fpsum, FP.log, FP.mul, FP.sub, FP.add,
    FP.neg, List.finRange, List.range, List.range.loop]

/-- C3 (amended): `_distance(Z, Y, epsilon)` is a pure function of its
arguments and, for every input with `Z >= 0`, `Y >= 0` and
`epsilon > 0`, its output is finite — no NaN and no Inf — and equals,
per index position `i` and candidate cluster `l`, the value
`sum(Y + eps) - sum(Z * log(Y + eps))` summed over the two non-index,
non-candidate axes. -/
theorem c3_distance_formula_and_finite {a b c t : ℕ} (lgq : ℚ → ℚ)
    (Z : Fin a → Fin b → Fin c → ℚ) (Y : Fin t → Fin b → Fin c → ℚ)
    (eps : ℚ) (hZ : ∀ i j k, 0 ≤ Z i j k) (hY : ∀ l j k, 0 ≤ Y l j k)
    (heps : 0 < eps) (i : Fin a) (l : Fin t) :
    distanceFP lgq Z Y eps i l =
      FP.num ((∑ j : Fin b, ∑ k : Fin c, (Y l j k + eps)) -
        ∑ j : Fin b, ∑ k : Fin c, Z i j k * lgq (Y l j k + eps)) ∧
    (distanceFP lgq Z Y eps i l).isFinite := by
  have hpos : ∀ (j : Fin b) (k : Fin c), 0 < Y l j k + eps := fun j k =>
    add_pos_of_nonneg_of_pos (hY l j k) heps
  have h1 : ((pairList b c).map fun p => FP.num (Y l p.1 p.2 + eps)) =
      (pairList b c).map fun p => FP.num ((fun q => Y l q.1 q.2 + eps) p) := rfl
  have h2 : ((pairList b c).map fun p =>
      FP.mul (FP.num (Z i p.1 p.2)) (FP.log lgq (FP.num (Y l p.1 p.2 + eps)))) =
      (pairList b c).map fun p =>
        FP.num ((fun q => Z i q.1 q.2 * lgq (Y l q.1 q.2 + eps)) p) := by
    refine List.map_congr_left fun p _ => ?_
    simp [FP.log, if_pos (hpos p.1 p.2), FP.mul]
  have heq : distanceFP lgq Z Y eps i l =
      FP.num ((∑ j : Fin b, ∑ k : Fin c, (Y l j k + eps)) -
        ∑ j : Fin b, ∑ k : Fin c, Z i j k * lgq (Y l j k + eps)) := by
    rw [distanceFP, h1, h2, fpsum_map_num, fpsum_map_num, FP.sub_num,
      pairList_sum, pairList_sum]
  exact ⟨heq, by rw [heq]; trivial⟩

/-- Witness for C3: the amended theorem applied at the concrete input
`Z = Y = 1`, `eps = 1/2`, with a logarithm stand-in `lgq = 3`, gives the
finite value `3/2 - 3 = -3/2`. -/
theorem c3_distance_formula_witness :
    (0:ℚ) < 1/2 ∧
    distanceFP (fun _ => 3) ((fun _ _ _ => (1:ℚ)) : Fin 1 → Fin 1 → Fin 1 → ℚ)
      ((fun _ _ _ => (1:ℚ)) : Fin 1 → Fin 1 → Fin 1 → ℚ)
      (1/2) (0 : Fin 1) (0 : Fin 1) = FP.num (-3/2) := by
  refine ⟨by norm_num, ?_⟩
  have h := c3_distance_formula_and_finite (fun _ => 3)
    ((fun _ _ _ => (1:ℚ)) : Fin 1 → Fin 1 → Fin 1 → ℚ)
    ((fun _ _ _ => (1:ℚ)) : Fin 1 → Fin 1 → Fin 1 → ℚ) (1/2)
    (fun _ _ _ => by norm_num) (fun _ _ _ => by norm_num) (by norm_num) 0 0
  refine h.1.trans ?_
  norm_num

/-! ## Alternating optimizer embeddings

Cluster counts are positive in the code (`nclusters >= 1`), so an axis
with `k+1` clusters is embedded with labels in `Fin (k+1)`.  The random
initialization (`_initialize_clusters`, a permuted residue vector) is
modelled by quantifying over arbitrary initial assignments, which covers
every outcome of the permutation. -/

/-- Cluster occupancy matrix `np.eye(nclusters)[cluster_idx]`:
entry `(i, a)` is 1 when index `i` is assigned to cluster `a`. -/
def oneHot {p q : ℕ} (f : Fin p → Fin q) (i : Fin p) (a : Fin q) : ℚ :=
  if f i = a then 1 else 0

/-- `np.argmin` / `da.argmin` along a cluster axis: the first index
attaining the minimum (ties resolved by lowest index). -/
def argminFin {k : ℕ} (f : Fin (k + 1) → ℚ) : Fin (k + 1) :=
  (List.finRange (k + 1)).foldl (fun best i => if f i < f best then i else best) 0

/-- `np.min` / `da.min` along a cluster axis. -/
def minFin {k : ℕ} (f : Fin (k + 1) → ℚ) : ℚ :=
  (List.finRange (k + 1)).foldl (fun acc i => min acc (f i)) (f 0)

/-- Number of indices assigned to cluster `a`
(`np.bincount(..., minlength=nclusters)` entry `a`: fixed-size bins, an
unpopulated cluster contributes the count 0). -/
def cnt {p q : ℕ} (f : Fin p → Fin q) (a : Fin q) : ℕ :=
  (Finset.univ.filter fun i => f i = a).card

/-- `src/geoclustering/coclustering_dask.py`, `_distance(Z, X, Y, epsilon)`:
`Y = Y + epsilon; d = da.dot(X, Y) - da.dot(Z, da.log(Y))`, over exact
rationals with the library logarithm modelled by `lgq`. -/
def distanceDask {p q r : ℕ} (lgq : ℚ → ℚ) (Z X : Fin p → Fin q → ℚ)
    (Y : Fin q → Fin r → ℚ) (eps : ℚ) (i : Fin p) (c : Fin r) : ℚ :=
  (∑ j, X i j * (Y j c + eps)) - ∑ j, Z i j * lgq (Y j c + eps)

/-- ℚ shadow of the tri-clustering `_distance(Z, Y, epsilon)` (the `FP`
rendering `distanceFP` above tracks the special values; by
`c3_distance_formula_and_finite` the two agree on the nonnegative inputs
arising in the algorithm). -/
def distanceTri {a b c t : ℕ} (lgq : ℚ → ℚ) (Z : Fin a → Fin b → Fin c → ℚ)
    (Y : Fin t → Fin b → Fin c → ℚ) (eps : ℚ) (i : Fin a) (l : Fin t) : ℚ :=
  (∑ j, ∑ k, (Y l j k + eps)) - ∑ j, ∑ k, Z i j k * lgq (Y l j k + eps)

section Coclustering

variable {m n kr kc : ℕ}

/-- `Z.mean()` for the 2-D data matrix. -/
def coGavg (Z : Fin m → Fin n → ℚ) : ℚ :=
  (∑ i, ∑ j, Z i j) / ((m : ℚ) * (n : ℚ))

/-- Cluster-based averages of `coclustering_dask.coclustering`:
`CoCavg = (dot(dot(R.T, Z), C) + Gavg*eps) / (dot(dot(R.T, ones), C) + eps)`. -/
def coCoCavg (Z : Fin m → Fin n → ℚ) (eps : ℚ) (rowA : Fin m → Fin (kr + 1))
    (colA : Fin n → Fin (kc + 1)) (a : Fin (kr + 1)) (b : Fin (kc + 1)) : ℚ :=
  ((∑ j, (∑ i, oneHot rowA i a * Z i j) * oneHot colA j b) + coGavg Z * eps) /
    ((∑ j, (∑ i, oneHot rowA i a * (1 : ℚ)) * oneHot colA j b) + eps)

/-- Row-step distances: `_distance(Z, ones((m,n)), dot(C, CoCavg.T), eps)`. -/
def coDrow (lgq : ℚ → ℚ) (Z : Fin m → Fin n → ℚ) (eps : ℚ)
    (rowA : Fin m → Fin (kr + 1)) (colA : Fin n → Fin (kc + 1)) :
    Fin m → Fin (kr + 1) → ℚ :=
  distanceDask lgq Z (fun _ _ => 1)
    (fun j c => ∑ b, oneHot colA j b * coCoCavg Z eps rowA colA c b) eps

/-- Column-step distances:
`_distance(Z.T, ones((n,m)), dot(R, CoCavg), eps)`, where `R` is the
occupancy matrix of the freshly updated row assignment. -/
def coDcol (lgq : ℚ → ℚ) (Z : Fin m → Fin n → ℚ) (eps : ℚ)
    (rowAold : Fin m → Fin (kr + 1)) (colAold : Fin n → Fin (kc + 1))
    (rowAnew : Fin m → Fin (kr + 1)) : Fin n → Fin (kc + 1) → ℚ :=
  distanceDask lgq (fun j i => Z i j) (fun _ _ => 1)
    (fun i c => ∑ a, oneHot rowAnew i a * coCoCavg Z eps rowAold colAold a c) eps

/-- Loop state of `coclustering_dask.coclustering`. -/
structure CoState (m n kr kc : ℕ) where
  rowA : Fin m → Fin (kr + 1)
  colA : Fin n → Fin (kc + 1)
  e : ℚ
  old_e : ℚ
  s : ℕ
  converged : Bool

/-- One pass of the `while` loop of `coclustering_dask.coclustering`:
recompute `CoCavg`, reassign rows, reassign columns (using the updated
rows), set the error to the summed column-axis minima, and test
convergence against the previous error. -/
def coStep (lgq : ℚ → ℚ) (Z : Fin m → Fin n → ℚ) (errobj eps : ℚ)
    (st : CoState m n kr kc) : CoState m n kr kc :=
  let rowA2 := fun i => argminFin (coDrow lgq Z eps st.rowA st.colA i)
  let colA2 := fun j => argminFin (coDcol lgq Z eps st.rowA st.colA rowA2 j)
  let e2 := ∑ j, minFin (coDcol lgq Z eps st.rowA st.colA rowA2 j)
  { rowA := rowA2, colA := colA2, e := e2, old_e := st.e, s := st.s + 1,
    converged := decide (|e2 - st.e| < errobj) }

/-- Fuel rendering of `while (not converged) & (s < niters)`: since `s`
starts at 0 and increases by exactly 1 each pass, running with fuel
`niters` is the same loop. -/
def coLoop (lgq : ℚ → ℚ) (Z : Fin m → Fin n → ℚ) (errobj eps : ℚ) :
    ℕ → CoState m n kr kc → CoState m n kr kc
  | 0, st => st
  | fuel + 1, st =>
      if st.converged then st
      else coLoop lgq Z errobj eps fuel (coStep lgq Z errobj eps st)

/-- `coclustering_dask.coclustering` with the random initialization
passed in explicitly; seeds `e, old_e = 2 * errobj, 0`. -/
def coclustering (lgq : ℚ → ℚ) (Z : Fin m → Fin n → ℚ) (errobj : ℚ)
    (niters : ℕ) (eps : ℚ) (rowInit : Fin m → Fin (kr + 1))
    (colInit : Fin n → Fin (kc + 1)) : CoState m n kr kc :=
  coLoop lgq Z errobj eps niters
    { rowA := rowInit, colA := colInit, e := 2 * errobj, old_e := 0,
      s := 0, converged := false }

end Coclustering

section Triclustering

variable {d m n kb kr kc : ℕ}

/-- `Z.mean()` for the 3-D data array. -/
def triGavg (Z : Fin d → Fin m → Fin n → ℚ) : ℚ :=
  (∑ b, ∑ r, ∑ c, Z b r c) / ((d : ℚ) * (m : ℚ) * (n : ℚ))

/-- `np.einsum('ij,ilm->jlm', B, Z)`: sum values along the band axis. -/
def triT1 (Z : Fin d → Fin m → Fin n → ℚ) (bndA : Fin d → Fin (kb + 1))
    (j : Fin (kb + 1)) (l : Fin m) (c : Fin n) : ℚ :=
  ∑ i, oneHot bndA i j * Z i l c

/-- `np.einsum('ij,kim->kjm', R, ...)`: sum along the row axis. -/
def triT2 (Z : Fin d → Fin m → Fin n → ℚ) (bndA : Fin d → Fin (kb + 1))
    (rowA : Fin m → Fin (kr + 1)) (k : Fin (kb + 1)) (j : Fin (kr + 1))
    (c : Fin n) : ℚ :=
  ∑ i, oneHot rowA i j * triT1 Z bndA k i c

/-- `np.einsum('ij,kli->klj', C, ...)`: sum along the column axis. -/
def triT3 (Z : Fin d → Fin m → Fin n → ℚ) (bndA : Fin d → Fin (kb + 1))
    (rowA : Fin m → Fin (kr + 1)) (colA : Fin n → Fin (kc + 1))
    (k : Fin (kb + 1)) (l : Fin (kr + 1)) (j : Fin (kc + 1)) : ℚ :=
  ∑ i, oneHot colA i j * triT2 Z bndA rowA k l i

/-- Number of elements per tri-cluster:
`einsum('i,jk->ijk', nel_bnd, einsum('i,j->ij', nel_row, nel_col))`,
from fixed-size bincounts. -/
def triNel (bndA : Fin d → Fin (kb + 1)) (rowA : Fin m → Fin (kr + 1))
    (colA : Fin n → Fin (kc + 1)) (j : Fin (kb + 1)) (k : Fin (kr + 1))
    (l : Fin (kc + 1)) : ℕ :=
  cnt bndA j * (cnt rowA k * cnt colA l)

/-- Tri-cluster averages of `triclustering_numpy.triclustering`:
`TriCavg = (einsum-chain(B, R, C, Z) + Gavg*eps) / (nel_clusters + eps)`. -/
def triTriCavg (Z : Fin d → Fin m → Fin n → ℚ) (eps : ℚ)
    (bndA : Fin d → Fin (kb + 1)) (rowA : Fin m → Fin (kr + 1))
    (colA : Fin n → Fin (kc + 1)) (j : Fin (kb + 1)) (k : Fin (kr + 1))
    (l : Fin (kc + 1)) : ℚ :=
  (triT3 Z bndA rowA colA j k l + triGavg Z * eps) /
    ((triNel bndA rowA colA j k l : ℚ) + eps)

/-- Row-step distances: unpack `TriCavg` along band and column axes
(`einsum('ij,jkl->ikl', B, ·)` then `einsum('ij,klj->kli', C, ·)`),
transpose by `(1,0,2)` and apply `_distance`. -/
def triDrow (lgq : ℚ → ℚ) (Z : Fin d → Fin m → Fin n → ℚ) (eps : ℚ)
    (bndA : Fin d → Fin (kb + 1)) (rowA : Fin m → Fin (kr + 1))
    (colA : Fin n → Fin (kc + 1)) : Fin m → Fin (kr + 1) → ℚ :=
  let unpck := fun (b : Fin d) (k : Fin (kr + 1)) (c : Fin n) =>
    ∑ j, oneHot colA c j *
      ∑ j2, oneHot bndA b j2 * triTriCavg Z eps bndA rowA colA j2 k j
  distanceTri lgq (fun r b c => Z b r c) (fun k b c => unpck b k c) eps

/-- Column-step distances: unpack along band and row axes
(`einsum('ij,jkl->ikl', B, ·)` then `einsum('ij,kjl->kil', R, ·)`),
transpose by `(2,0,1)` and apply `_distance`.  `R` here is still the
occupancy matrix built at the top of the iteration. -/
def triDcol (lgq : ℚ → ℚ) (Z : Fin d → Fin m → Fin n → ℚ) (eps : ℚ)
    (bndA : Fin d → Fin (kb + 1)) (rowA : Fin m → Fin (kr + 1))
    (colA : Fin n → Fin (kc + 1)) : Fin n → Fin (kc + 1) → ℚ :=
  let unpck := fun (b : Fin d) (r : Fin m) (l : Fin (kc + 1)) =>
    ∑ j, oneHot rowA r j *
      ∑ j2, oneHot bndA b j2 * triTriCavg Z eps bndA rowA colA j2 j l
  distanceTri lgq (fun c b r => Z b r c) (fun l b r => unpck b r l) eps

/-- Band-step distances: unpack along row and column axes
(`einsum('ij,kjl->kil', R, ·)` then `einsum('ij,klj->kli', C, ·)`) and
apply `_distance` directly to `Z`. -/
def triDbnd (lgq : ℚ → ℚ) (Z : Fin d → Fin m → Fin n → ℚ) (eps : ℚ)
    (bndA : Fin d → Fin (kb + 1)) (rowA : Fin m → Fin (kr + 1))
    (colA : Fin n → Fin (kc + 1)) : Fin d → Fin (kb + 1) → ℚ :=
  let unpck := fun (j : Fin (kb + 1)) (r : Fin m) (c : Fin n) =>
    ∑ j3, oneHot colA c j3 *
      ∑ j2, oneHot rowA r j2 * triTriCavg Z eps bndA rowA colA j j2 j3
  distanceTri lgq Z (fun j r c => unpck j r c) eps

/-- Loop state of `triclustering_numpy.triclustering`. -/
structure TriState (d m n kb kr kc : ℕ) where
  bndA : Fin d → Fin (kb + 1)
  rowA : Fin m → Fin (kr + 1)
  colA : Fin n → Fin (kc + 1)
  e : ℚ
  old_e : ℚ
  s : ℕ
  converged : Bool

/-- One pass of the `while` loop of `triclustering_numpy.triclustering`:
recompute `TriCavg`, reassign rows, columns and bands from the
iteration-start occupancy matrices, set the error to the summed
band-axis minima, and test convergence against the previous error. -/
def triStep (lgq : ℚ → ℚ) (Z : Fin d → Fin m → Fin n → ℚ) (errobj eps : ℚ)
    (st : TriState d m n kb kr kc) : TriState d m n kb kr kc :=
  let rowA2 := fun i => argminFin (triDrow lgq Z eps st.bndA st.rowA st.colA i)
  let colA2 := fun j => argminFin (triDcol lgq Z eps st.bndA st.rowA st.colA j)
  let bndA2 := fun b => argminFin (triDbnd lgq Z eps st.bndA st.rowA st.colA b)
  let e2 := ∑ b, minFin (triDbnd lgq Z eps st.bndA st.rowA st.colA b)
  { bndA := bndA2, rowA := rowA2, colA := colA2, e := e2, old_e := st.e,
    s := st.s + 1, converged := decide (|e2 - st.e| < errobj) }

/-- Fuel rendering of the tri-clustering `while` loop (see `coLoop`). -/
def triLoop (lgq : ℚ → ℚ) (Z : Fin d → Fin m → Fin n → ℚ) (errobj eps : ℚ) :
    ℕ → TriState d m n kb kr kc → TriState d m n kb kr kc
  | 0, st => st
  | fuel + 1, st =>
      if st.converged then st
      else triLoop lgq Z errobj eps fuel (triStep lgq Z errobj eps st)

/-- `triclustering_numpy.triclustering` with initial assignments passed
in explicitly; seeds `e, old_e = 2 * errobj, 0`. -/
def triclustering (lgq : ℚ → ℚ) (Z : Fin d → Fin m → Fin n → ℚ)
    (errobj : ℚ) (niters : ℕ) (eps : ℚ) (bndInit : Fin d → Fin (kb + 1))
    (rowInit : Fin m → Fin (kr + 1)) (colInit : Fin n → Fin (kc + 1)) :
    TriState d m n kb kr kc :=
  triLoop lgq Z errobj eps niters
    { bndA := bndInit, rowA := rowInit, colA := colInit, e := 2 * errobj,
      old_e := 0, s := 0, converged := false }

end Triclustering

/-! ## Block-average computation (C7) -/

theorem sum_comm3 {A B C : Type} [Fintype A] [Fintype B] [Fintype C]
    (f : A → B → C → ℚ) :
    ∑ c : C, ∑ r : B, ∑ b : A, f b r c = ∑ b : A, ∑ r : B, ∑ c : C, f b r c := by
  calc ∑ c : C, ∑ r : B, ∑ b : A, f b r c
      = ∑ r : B, ∑ c : C, ∑ b : A, f b r c := Finset.sum_comm
    _ = ∑ r : B, ∑ b : A, ∑ c : C, f b r c :=
        Finset.sum_congr rfl fun _ _ => Finset.sum_comm
    _ = ∑ b : A, ∑ r : B, ∑ c : C, f b r c := Finset.sum_comm

theorem triT3_eq_blockSum {d m n kb kr kc : ℕ}
    (Z : Fin d → Fin m → Fin n → ℚ) (bndA : Fin d → Fin (kb + 1))
    (rowA : Fin m → Fin (kr + 1)) (colA : Fin n → Fin (kc + 1))
    (j : Fin (kb + 1)) (k : Fin (kr + 1)) (l : Fin (kc + 1)) :
    triT3 Z bndA rowA colA j k l =
      ∑ t ∈ Finset.univ.filter
        (fun t : Fin d × Fin m × Fin n =>
          bndA t.1 = j ∧ rowA t.2.1 = k ∧ colA t.2.2 = l),
        Z t.1 t.2.1 t.2.2 := by
  rw [Finset.sum_filter, Fintype.sum_prod_type]
  simp only [Fintype.sum_prod_type]
  rw [← sum_comm3 fun b r c =>
    if bndA b = j ∧ rowA r = k ∧ colA c = l then Z b r c else 0]
  simp only [triT3, triT2, triT1, oneHot, Finset.mul_sum, ite_mul, one_mul,
    zero_mul]
  refine Finset.sum_congr rfl fun c _ => Finset.sum_congr rfl fun r _ =>
    Finset.sum_congr rfl fun b _ => ?_
  by_cases h1 : bndA b = j <;> by_cases h2 : rowA r = k <;>
    by_cases h3 : colA c = l <;> simp [h1, h2, h3]

theorem triNel_eq_card {d m n kb kr kc : ℕ}
    (bndA : Fin d → Fin (kb + 1)) (rowA : Fin m → Fin (kr + 1))
    (colA : Fin n → Fin (kc + 1)) (j : Fin (kb + 1)) (k : Fin (kr + 1))
    (l : Fin (kc + 1)) :
    triNel bndA rowA colA j k l =
      (Finset.univ.filter
        (fun t : Fin d × Fin m × Fin n =>
          bndA t.1 = j ∧ rowA t.2.1 = k ∧ colA t.2.2 = l)).card := by
  have h1 : (Finset.univ : Finset (Fin d × Fin m × Fin n)) =
      Finset.univ ×ˢ (Finset.univ ×ˢ Finset.univ) := by
    simp
  rw [h1, Finset.filter_product (fun b => bndA b = j)
    (fun t : Fin m × Fin n => rowA t.1 = k ∧ colA t.2 = l),
    Finset.card_product,
    Finset.filter_product (fun r => rowA r = k) (fun c => colA c = l),
    Finset.card_product]
  rfl

theorem coNum_eq_blockSum {m n kr kc : ℕ} (Z : Fin m → Fin n → ℚ)
    (rowA : Fin m → Fin (kr + 1)) (colA : Fin n → Fin (kc + 1))
    (a : Fin (kr + 1)) (b : Fin (kc + 1)) :
    (∑ j, (∑ i, oneHot rowA i a * Z i j) * oneHot colA j b) =
      ∑ t ∈ Finset.univ.filter
        (fun t : Fin m × Fin n => rowA t.1 = a ∧ colA t.2 = b),
        Z t.1 t.2 := by
  rw [Finset.sum_filter, Fintype.sum_prod_type, Finset.sum_comm]
  simp only [oneHot, Finset.sum_mul, ite_mul, one_mul, zero_mul, mul_ite,
    mul_one, mul_zero]
  refine Finset.sum_congr rfl fun j _ => ?_
  by_cases h2 : colA j = b
  · simp only [h2, if_true, and_true]
  · simp [h2]

theorem coDen_eq_card {m n kr kc : ℕ}
    (rowA : Fin m → Fin (kr + 1)) (colA : Fin n → Fin (kc + 1))
    (a : Fin (kr + 1)) (b : Fin (kc + 1)) :
    (∑ j, (∑ i, oneHot rowA i a * (1 : ℚ)) * oneHot colA j b) =
      ((Finset.univ.filter
        (fun t : Fin m × Fin n => rowA t.1 = a ∧ colA t.2 = b)).card : ℚ) := by
  have h1 : (Finset.univ : Finset (Fin m × Fin n)) =
      Finset.univ ×ˢ Finset.univ := by simp
  rw [h1, Finset.filter_product (fun r => rowA r = a) (fun c => colA c = b),
    Finset.card_product]
  simp only [oneHot, mul_one, Finset.sum_boole]
  rw [← Finset.mul_sum, Finset.sum_boole]
  push_cast
  ring

/-- C7: every cell `(i,j[,k])` of the block-average tensor equals
`(sum of data elements whose axis labels match + Gavg*eps) /
(count of such elements + eps)`; the counts come from fixed-size bins,
so an empty block contributes a zero count and still has a cell (the
statement ranges over all cells of the full cluster grid).  Holds for
the tri-clustering `TriCavg` and the co-clustering `CoCavg`. -/
theorem c7_block_average_cells :
    (∀ (d m n kb kr kc : ℕ) (Z : Fin d → Fin m → Fin n → ℚ) (eps : ℚ)
      (bndA : Fin d → Fin (kb + 1)) (rowA : Fin m → Fin (kr + 1))
      (colA : Fin n → Fin (kc + 1)) (j : Fin (kb + 1)) (k : Fin (kr + 1))
      (l : Fin (kc + 1)),
      triTriCavg Z eps bndA rowA colA j k l =
        ((∑ t ∈ Finset.univ.filter
            (fun t : Fin d × Fin m × Fin n =>
              bndA t.1 = j ∧ rowA t.2.1 = k ∧ colA t.2.2 = l),
            Z t.1 t.2.1 t.2.2) + triGavg Z * eps) /
          (((Finset.univ.filter
            (fun t : Fin d × Fin m × Fin n =>
              bndA t.1 = j ∧ rowA t.2.1 = k ∧ colA t.2.2 = l)).card : ℚ)
            + eps)) ∧
    (∀ (m n kr kc : ℕ) (Z : Fin m → Fin n → ℚ) (eps : ℚ)
      (rowA : Fin m → Fin (kr + 1)) (colA : Fin n → Fin (kc + 1))
      (a : Fin (kr + 1)) (b : Fin (kc + 1)),
      coCoCavg Z eps rowA colA a b =
        ((∑ t ∈ Finset.univ.filter
            (fun t : Fin m × Fin n => rowA t.1 = a ∧ colA t.2 = b),
            Z t.1 t.2) + coGavg Z * eps) /
          (((Finset.univ.filter
            (fun t : Fin m × Fin n => rowA t.1 = a ∧ colA t.2 = b)).card : ℚ)
            + eps)) := by
  constructor
  · intro d m n kb kr kc Z eps bndA rowA colA j k l
    rw [triTriCavg, triT3_eq_blockSum, triNel_eq_card]
  · intro m n kr kc Z eps rowA colA a b
    rw [coCoCavg, coNum_eq_blockSum, coDen_eq_card]

/-! ## Objective error (C6) and convergence seeding (C4)

Concrete evaluations use the 1-element instance below.  There the only
argument ever passed to the library logarithm is `1` (all block averages
equal `1/2` and `epsilon = 1/2`), so the stand-in `lgq0 = 0` agrees with
the real logarithm (`log 1 = 0`) on every argument reached. -/

/-- Logarithm stand-in used in concrete evaluations. -/
def lgq0 : ℚ → ℚ := fun _ => 0

/-- Concrete 1×1 data matrix with the single entry `1/2`. -/
def Zhalf : Fin 1 → Fin 1 → ℚ := fun _ _ => 1/2

/-- Concrete co-clustering loop state on `Zhalf` (the unique possible
assignment for 1 row cluster and 1 column cluster). -/
def coSt0 : CoState 1 1 0 0 :=
  { rowA := fun _ => 0, colA := fun _ => 0, e := 1, old_e := 0, s := 0,
    converged := false }

/-- C6: in every iteration, the objective error equals the sum over all
positions of the minimal divergence computed for the last axis processed
only — the band axis for tri-clustering and the column axis for
co-clustering — and (third conjunct, concrete instance) differs from
the sum of the per-axis minimal distances over all axes. -/
theorem c6_error_is_last_axis_min_sum :
    (∀ (d m n kb kr kc : ℕ) (lgq : ℚ → ℚ) (Z : Fin d → Fin m → Fin n → ℚ)
      (errobj eps : ℚ) (st : TriState d m n kb kr kc),
      (triStep lgq Z errobj eps st).e =
        ∑ b, minFin (triDbnd lgq Z eps st.bndA st.rowA st.colA b)) ∧
    (∀ (m n kr kc : ℕ) (lgq : ℚ → ℚ) (Z : Fin m → Fin n → ℚ)
      (errobj eps : ℚ) (st : CoState m n kr kc),
      (coStep lgq Z errobj eps st).e =
        ∑ j, minFin (coDcol lgq Z eps st.rowA st.colA
          (fun i => argminFin (coDrow lgq Z eps st.rowA st.colA i)) j)) ∧
    (coStep lgq0 Zhalf (1/2) (1/2) coSt0).e ≠
      (∑ i, minFin (coDrow lgq0 Zhalf (1/2) coSt0.rowA coSt0.colA i)) +
        ∑ j, minFin (coDcol lgq0 Zhalf (1/2) coSt0.rowA coSt0.colA
          (fun i => argminFin (coDrow lgq0 Zhalf (1/2) coSt0.rowA coSt0.colA i))
          j) := by
  refine ⟨fun _ _ _ _ _ _ _ _ _ _ _ => rfl, fun _ _ _ _ _ _ _ _ _ => rfl, ?_⟩
  norm_num [coStep, coDrow, coDcol, coCoCavg, coGavg, distanceDask, oneHot,
    minFin, argminFin, lgq0, Zhalf, coSt0, List.finRange, List.range,
    List.range.loop, Fin.sum_univ_one]

theorem coLoop_s_le {m n kr kc : ℕ} (lgq : ℚ → ℚ) (Z : Fin m → Fin n → ℚ)
    (errobj eps : ℚ) (fuel : ℕ) :
    ∀ st : CoState m n kr kc, st.s ≤ (coLoop lgq Z errobj eps fuel st).s := by
  induction fuel with
  | zero => intro st; simp [coLoop]
  | succ f ih =>
      intro st
      rw [coLoop]
      by_cases h : st.converged
      · simp [h]
      · simp only [h, if_false]
        exact le_trans (Nat.le_succ st.s) (ih (coStep lgq Z errobj eps st))

theorem triLoop_s_le {d m n kb kr kc : ℕ} (lgq : ℚ → ℚ)
    (Z : Fin d → Fin m → Fin n → ℚ) (errobj eps : ℚ) (fuel : ℕ) :
    ∀ st : TriState d m n kb kr kc,
      st.s ≤ (triLoop lgq Z errobj eps fuel st).s := by
  induction fuel with
  | zero => intro st; simp [triLoop]
  | succ f ih =>
      intro st
      rw [triLoop]
      by_cases h : st.converged
      · simp [h]
      · simp only [h, if_false]
        exact le_trans (Nat.le_succ st.s) (ih (triStep lgq Z errobj eps st))

theorem coLoop_stops_when_converged {m n kr kc : ℕ} (lgq : ℚ → ℚ)
    (Z : Fin m → Fin n → ℚ) (errobj eps : ℚ) (fuel : ℕ)
    (st : CoState m n kr kc) (h0 : st.converged = false)
    (h1 : (coStep lgq Z errobj eps st).converged = true) :
    coLoop lgq Z errobj eps (fuel + 2) st = coStep lgq Z errobj eps st := by
  show coLoop lgq Z errobj eps (fuel + 1 + 1) st = _
  rw [coLoop, if_neg (by simp [h0]), coLoop, if_pos h1]

/-- C4 (counterexample): a run CAN return `converged = true` after
exactly one iteration through comparison against the seed.  On the 1×1
matrix `Zhalf` with `conv_threshold = 1/2` and `epsilon = 1/2`
(`max_iterations = 5`), the first computed error is `1 = 2 * errobj`,
the convergence test `|1 - 2*errobj| < errobj` passes on the very first
iteration, and the run reports `converged = true` with `s = 1`. -/
theorem c4_first_iteration_convergence_counterexample :
    ((0:ℚ) < 1/2) ∧ (1:ℕ) ≤ 5 ∧
    (coclustering lgq0 Zhalf (1/2) 5 (1/2)
      (fun _ => 0) (fun _ => 0) : CoState 1 1 0 0).converged = true ∧
    (coclustering lgq0 Zhalf (1/2) 5 (1/2)
      (fun _ => 0) (fun _ => 0) : CoState 1 1 0 0).s = 1 := by
  have h1 : (coStep lgq0 Zhalf (1/2) (1/2)
      ({ rowA := fun _ => 0, colA := fun _ => 0, e := 2 * (1/2), old_e := 0,
         s := 0, converged := false } : CoState 1 1 0 0)).converged = true := by
    norm_num [coStep, coDrow, coDcol, coCoCavg, coGavg, distanceDask, oneHot,
      minFin, argminFin, lgq0, Zhalf, List.finRange, List.range,
      List.range.loop, Fin.sum_univ_one]
  have h2 : coclustering lgq0 Zhalf (1/2) 5 (1/2)
      (fun _ => 0) (fun _ => 0) = coStep lgq0 Zhalf (1/2) (1/2)
      ({ rowA := fun _ => 0, colA := fun _ => 0, e := 2 * (1/2), old_e := 0,
         s := 0, converged := false } : CoState 1 1 0 0) :=
    coLoop_stops_when_converged lgq0 Zhalf (1/2) (1/2) 3 _ rfl h1
  exact ⟨by norm_num, by norm_num, by rw [h2]; exact h1, by rw [h2]; rfl⟩

/-- C4 (amended): the seeds (`error = 2 * conv_threshold` against
`previous_error = 0`) make the convergence test fail at loop entry —
`|2*errobj - 0| < errobj` is false for every positive threshold — so a
run never reports convergence in zero iterations and, when
`max_iterations >= 1`, always performs at least one iteration (in both
the co-clustering and the tri-clustering loop); a run can however still
return `converged = true` after exactly one iteration, when the first
computed error lies within `errobj` of the seed `2 * errobj`. -/
theorem c4_seed_prevents_zero_iterations (errobj : ℚ) (h : 0 < errobj) :
    (¬ |2 * errobj - 0| < errobj) ∧
    (∀ (m n kr kc : ℕ) (lgq : ℚ → ℚ) (Z : Fin m → Fin n → ℚ) (niters : ℕ)
      (eps : ℚ) (rowInit : Fin m → Fin (kr + 1))
      (colInit : Fin n → Fin (kc + 1)), 1 ≤ niters →
      1 ≤ (coclustering lgq Z errobj niters eps rowInit colInit).s) ∧
    (∀ (d m n kb kr kc : ℕ) (lgq : ℚ → ℚ) (Z : Fin d → Fin m → Fin n → ℚ)
      (niters : ℕ) (eps : ℚ) (bndInit : Fin d → Fin (kb + 1))
      (rowInit : Fin m → Fin (kr + 1)) (colInit : Fin n → Fin (kc + 1)),
      1 ≤ niters →
      1 ≤ (triclustering lgq Z errobj niters eps bndInit rowInit
        colInit).s) := by
  refine ⟨?_, ?_, ?_⟩
  · rw [sub_zero, abs_of_pos (by linarith)]
    intro hcon
    linarith
  · intro m n kr kc lgq Z niters eps rowInit colInit hn
    obtain ⟨f, rfl⟩ : ∃ f, niters = f + 1 :=
      ⟨niters - 1, (Nat.succ_pred_eq_of_pos hn).symm⟩
    rw [coclustering, coLoop, if_neg (by simp)]
    exact coLoop_s_le lgq Z errobj eps f
      (coStep lgq Z errobj eps
        { rowA := rowInit, colA := colInit, e := 2 * errobj, old_e := 0,
          s := 0, converged := false })
  · intro d m n kb kr kc lgq Z niters eps bndInit rowInit colInit hn
    obtain ⟨f, rfl⟩ : ∃ f, niters = f + 1 :=
      ⟨niters - 1, (Nat.succ_pred_eq_of_pos hn).symm⟩
    rw [triclustering, triLoop, if_neg (by simp)]
    exact triLoop_s_le lgq Z errobj eps f
      (triStep lgq Z errobj eps
        { bndA := bndInit, rowA := rowInit, colA := colInit, e := 2 * errobj,
          old_e := 0, s := 0, converged := false })

/-- Witness for C4: the amended theorem applied at `errobj = 1/2` and at
the concrete 1×1 instance with 3 allowed iterations. -/
theorem c4_seed_prevents_zero_iterations_witness :
    ((0:ℚ) < 1/2) ∧ (¬ |2 * (1/2 : ℚ) - 0| < 1/2) ∧ (1:ℕ) ≤ 3 ∧
    1 ≤ (coclustering lgq0 Zhalf (1/2) 3 (1/2)
      (fun _ => 0) (fun _ => 0) : CoState 1 1 0 0).s := by
  have h := c4_seed_prevents_zero_iterations (1/2) (by norm_num)
  exact ⟨by norm_num, h.1, by norm_num,
    h.2.1 1 1 0 0 lgq0 Zhalf 3 (1/2) (fun _ => 0) (fun _ => 0) (by norm_num)⟩

/-! ## Run orchestrator (C1)

A run's labels are opaque to the orchestrator; they are modelled by
natural-number handles.  The list models the order in which completed
runs are drained (`as_completed` / the sequential loop): the claims
quantify over all orders. -/

/-- Outcome of one optimizer run:
`(converged, niters, row_clusters, col_clusters, e)`. -/
structure RunResult where
  converged : Bool
  niters : ℕ
  row : ℕ
  col : ℕ
  e : ℚ
deriving DecidableEq

/-- `cgc.coclustering.CoclusteringResults`: best-so-far state of the
orchestrator, with `error` initialized to `None`. -/
structure CoclusteringResults where
  row_clusters : Option ℕ := none
  col_clusters : Option ℕ := none
  error : Option ℚ := none
  nruns_completed : ℕ := 0
  nruns_converged : ℕ := 0
deriving DecidableEq

/-- Body of the retrieval loop in
`cgc/coclustering.py, Coclustering.run_with_threads` (the identical
logic also appears in `_dask_runs_memory` and `_dask_runs_performance`):
count the run, count convergence, and replace the best-so-far fields
when `error is None or e < error`. -/
def cgcCollect (res : CoclusteringResults) (r : RunResult) : CoclusteringResults :=
  let res1 := { res with nruns_completed := res.nruns_completed + 1 }
  let res2 := if r.converged then
    { res1 with nruns_converged := res1.nruns_converged + 1 } else res1
  match res2.error with
  | none =>
      { res2 with
        row_clusters := some r.row, col_clusters := some r.col,
        error := some r.e }
  | some e0 =>
      if r.e < e0 then
        { res2 with
          row_clusters := some r.row, col_clusters := some r.col,
          error := some r.e }
      else res2

/-- `cgc/coclustering.py, Coclustering.run_with_threads`: drain the
completed runs into the results object. -/
def cgcRunWithThreads (runs : List RunResult) : CoclusteringResults :=
  runs.foldl cgcCollect {}

/-- Best-so-far state of the geoclustering orchestrator:
`row_min, col_min, e_min = None, None, 0.`. -/
structure GeoState where
  row_min : Option ℕ
  col_min : Option ℕ
  e_min : ℚ
deriving DecidableEq

/-- Body of the retrieval loop in
`geoclustering/coclustering.py, Coclustering.run_with_threads` (the same
logic appears in `_dask_runs_memory` and `_dask_runs_performance`):
replace the best-so-far triple only when `e < e_min`. -/
def geoCollect (st : GeoState) (r : RunResult) : GeoState :=
  if r.e < st.e_min then
    { row_min := some r.row, col_min := some r.col, e_min := r.e }
  else st

/-- `geoclustering/coclustering.py, Coclustering.run_with_threads`:
drain the completed runs starting from `e_min = 0.`. -/
def geoRunWithThreads (runs : List RunResult) : GeoState :=
  runs.foldl geoCollect { row_min := none, col_min := none, e_min := 0 }

theorem cgcCollect_error_fields (res : CoclusteringResults) (r : RunResult)
    (e0 : ℚ) (h1 : res.error = some e0) :
    (r.e < e0 → (cgcCollect res r).error = some r.e ∧
      (cgcCollect res r).row_clusters = some r.row ∧
      (cgcCollect res r).col_clusters = some r.col) ∧
    (¬ r.e < e0 → (cgcCollect res r).error = some e0 ∧
      (cgcCollect res r).row_clusters = res.row_clusters ∧
      (cgcCollect res r).col_clusters = res.col_clusters) := by
  cases hcv : r.converged <;>
    constructor <;> intro hlt <;> simp [cgcCollect, h1, hlt, hcv]

theorem cgcFoldl_best :
    ∀ (runs : List RunResult) (res : CoclusteringResults) (e0 : ℚ) (r0 c0 : ℕ),
      res.error = some e0 → res.row_clusters = some r0 →
      res.col_clusters = some c0 →
      ∃ (e1 : ℚ) (r1 c1 : ℕ),
        (runs.foldl cgcCollect res).error = some e1 ∧
        (runs.foldl cgcCollect res).row_clusters = some r1 ∧
        (runs.foldl cgcCollect res).col_clusters = some c1 ∧
        ((e1 = e0 ∧ r1 = r0 ∧ c1 = c0) ∨
          ∃ r ∈ runs, e1 = r.e ∧ r1 = r.row ∧ c1 = r.col) ∧
        e1 ≤ e0 ∧ ∀ r ∈ runs, e1 ≤ r.e := by
  intro runs
  induction runs with
  | nil =>
      intro res e0 r0 c0 h1 h2 h3
      exact ⟨e0, r0, c0, h1, h2, h3, Or.inl ⟨rfl, rfl, rfl⟩, le_refl _, by simp⟩
  | cons a l ih =>
      intro res e0 r0 c0 h1 h2 h3
      simp only [List.foldl_cons]
      by_cases hlt : a.e < e0
      · obtain ⟨g1, g2, g3⟩ := (cgcCollect_error_fields res a e0 h1).1 hlt
        obtain ⟨e1, r1, c1, f1, f2, f3, f4, f5, f6⟩ :=
          ih (cgcCollect res a) a.e a.row a.col g1 g2 g3
        refine ⟨e1, r1, c1, f1, f2, f3, ?_, le_trans f5 (le_of_lt hlt), ?_⟩
        · rcases f4 with ⟨ha, hb, hc⟩ | ⟨r, hr, hh⟩
          · exact Or.inr ⟨a, List.mem_cons_self a l, ha, hb, hc⟩
          · exact Or.inr ⟨r, List.mem_cons_of_mem a hr, hh⟩
        · intro r hr
          rcases List.mem_cons.mp hr with rfl | hr2
          · exact f5
          · exact f6 r hr2
      · obtain ⟨g1, g2, g3⟩ := (cgcCollect_error_fields res a e0 h1).2 hlt
        obtain ⟨e1, r1, c1, f1, f2, f3, f4, f5, f6⟩ :=
          ih (cgcCollect res a) e0 r0 c0 g1 (g2.trans h2) (g3.trans h3)
        refine ⟨e1, r1, c1, f1, f2, f3, ?_, f5, ?_⟩
        · rcases f4 with hsame | ⟨r, hr, hh⟩
          · exact Or.inl hsame
          · exact Or.inr ⟨r, List.mem_cons_of_mem a hr, hh⟩
        · intro r hr
          rcases List.mem_cons.mp hr with rfl | hr2
          · exact le_trans f5 (le_of_not_lt hlt)
          · exact f6 r hr2

/-- C1: for the cgc orchestrator (identical retrieval logic in its
thread and Dask backends), the final `error` is the minimum of the
errors of the completed runs and the retained labels are those of a
minimum-achieving run — for every completion order and every nonempty
run list.  The second conjunct shows the geoclustering runners do NOT
satisfy this: starting from `e_min = 0.`, a single completed run with
error `1` is never retained (`error` stays `0`, labels stay `None`). -/
theorem c1_best_of_n_selection :
    (∀ runs : List RunResult, runs ≠ [] →
      ∃ r ∈ runs,
        (cgcRunWithThreads runs).error = some r.e ∧
        (cgcRunWithThreads runs).row_clusters = some r.row ∧
        (cgcRunWithThreads runs).col_clusters = some r.col ∧
        ∀ r2 ∈ runs, r.e ≤ r2.e) ∧
    (geoRunWithThreads [⟨true, 1, 7, 8, 1⟩] =
      { row_min := none, col_min := none, e_min := 0 } ∧
      ((0:ℚ) ≠ 1)) := by
  constructor
  · intro runs hne
    match runs with
    | a :: l =>
      have hfirst : cgcCollect {} a =
          { row_clusters := some a.row, col_clusters := some a.col,
            error := some a.e, nruns_completed := 1,
            nruns_converged := if a.converged then 1 else 0 } := by
        cases hcv : a.converged <;> simp [cgcCollect, hcv]
      obtain ⟨e1, r1, c1, f1, f2, f3, f4, f5, f6⟩ :=
        cgcFoldl_best l (cgcCollect {} a) a.e a.row a.col
          (by rw [hfirst]) (by rw [hfirst]) (by rw [hfirst])
      have hrw : cgcRunWithThreads (a :: l) = l.foldl cgcCollect (cgcCollect {} a) := rfl
      rcases f4 with ⟨ha, hb, hc⟩ | ⟨r, hr, ha, hb, hc⟩
      · exact ⟨a, List.mem_cons_self a l,
          by rw [hrw, f1, ha], by rw [hrw, f2, hb], by rw [hrw, f3, hc],
          fun r2 hr2 => by
            rcases List.mem_cons.mp hr2 with rfl | hr3
            · exact le_refl _
            · rw [← ha]; exact f6 r2 hr3⟩
      · refine ⟨r, List.mem_cons_of_mem a hr,
          by rw [hrw, f1, ha], by rw [hrw, f2, hb], by rw [hrw, f3, hc], ?_⟩
        intro r2 hr2
        rcases List.mem_cons.mp hr2 with rfl | hr3
        · rw [← ha]; exact f5
        · rw [← ha]; exact f6 r2 hr3
  · refine ⟨?_, by norm_num⟩
    show geoCollect { row_min := none, col_min := none, e_min := 0 }
      ⟨true, 1, 7, 8, 1⟩ = _
    rw [geoCollect, if_neg (by norm_num)]

/-- Witness for C1: the cgc part of the theorem applied to a concrete
two-run completion order with errors `3` then `1`. -/
theorem c1_best_of_n_selection_witness :
    (([⟨false, 2, 7, 8, 3⟩, ⟨true, 1, 9, 10, 1⟩] : List RunResult) ≠ []) ∧
    (∃ r ∈ ([⟨false, 2, 7, 8, 3⟩, ⟨true, 1, 9, 10, 1⟩] : List RunResult),
      (cgcRunWithThreads [⟨false, 2, 7, 8, 3⟩, ⟨true, 1, 9, 10, 1⟩]).error
        = some r.e ∧
      (cgcRunWithThreads [⟨false, 2, 7, 8, 3⟩, ⟨true, 1, 9, 10, 1⟩]).row_clusters
        = some r.row ∧
      (cgcRunWithThreads [⟨false, 2, 7, 8, 3⟩, ⟨true, 1, 9, 10, 1⟩]).col_clusters
        = some r.col ∧
      ∀ r2 ∈ ([⟨false, 2, 7, 8, 3⟩, ⟨true, 1, 9, 10, 1⟩] : List RunResult),
        r.e ≤ r2.e) :=
  ⟨by simp, c1_best_of_n_selection.1 _ (by simp)⟩

/-! ## Returned results snapshot (C5)

`run_with_threads` and `run_with_dask` both end with
`return copy.copy(self.results)`.  Python reference semantics are
modelled explicitly: numpy label arrays live in a heap (`Store`)
addressed by references, and a results object holds references to its
label arrays plus an immutable `error` attribute.  `copy.copy` produces
a new object with the same attribute values — in particular the same
array references. -/

/-- Heap of numpy arrays: address → array contents. -/
def Store : Type := ℕ → List ℚ

/-- A results object as the caller sees it: references to the label
arrays, and the scalar `error` attribute. -/
structure ResultsObj where
  row_ref : ℕ
  col_ref : ℕ
  error : Option ℚ

/-- `copy.copy(self.results)`: a new object whose attributes hold the
same values — the same array references (shallow copy). -/
def copyShallow (r : ResultsObj) : ResultsObj :=
  { row_ref := r.row_ref, col_ref := r.col_ref, error := r.error }

/-- Mutations a caller can perform through the returned object:
rebind an attribute to a new value, or write in place into the label
array the attribute references. -/
inductive CallerMutation where
  | setRowRef : ℕ → CallerMutation
  | setError : Option ℚ → CallerMutation
  | writeRow : ℕ → ℚ → CallerMutation

/-- Attribute rebinding (`obj.attr = x`), as opposed to in-place array
mutation (`obj.row_clusters[i] = v`). -/
def isAttrRebind : CallerMutation → Bool
  | .setRowRef _ => true
  | .setError _ => true
  | .writeRow _ _ => false

/-- In-place write into the array at the given heap address. -/
def storeWrite (s : Store) (addr idx : ℕ) (v : ℚ) : Store :=
  fun a => if a = addr then (s addr).set idx v else s a

/-- Effect of a caller mutation on the mutated object and the heap. -/
def applyMutation : CallerMutation → ResultsObj → Store → ResultsObj × Store
  | .setRowRef a, r, s => ({ r with row_ref := a }, s)
  | .setError q, r, s => ({ r with error := q }, s)
  | .writeRow i v, r, s => (r, storeWrite s r.row_ref i v)

/-- The row-label array an object observes through its reference. -/
def viewRow (r : ResultsObj) (s : Store) : List ℚ := s r.row_ref

/-- Concrete heap: one two-element label array at address 0. -/
def store0C5 : Store := fun a => if a = 0 then [1, 2] else []

/-- C5 (counterexample): the returned object is only a SHALLOW copy, so
an in-place write into its row-label array changes the label array the
orchestrator-internal results object observes: with the internal object
referencing address 0, writing `99` at index 0 through the returned
copy turns the internal view from `[1, 2]` into `[99, 2]`. -/
theorem c5_shallow_copy_counterexample :
    viewRow ⟨0, 1, some 5⟩
      (applyMutation (.writeRow 0 99) (copyShallow ⟨0, 1, some 5⟩)
        store0C5).2 ≠ viewRow ⟨0, 1, some 5⟩ store0C5 := by
  simp [viewRow, applyMutation, copyShallow, storeWrite, store0C5]

/-- C5 (amended): the value returned by `run_with_threads` and
`run_with_dask` is a shallow copy of the aggregate results: attribute
rebinding performed by the caller on the returned object cannot change
the orchestrator-internal results state (the heap, and hence every
internal observation, is unchanged), but in-place mutation of the
shared label arrays through the returned object does reach the internal
state. -/
theorem c5_shallow_copy_attr_rebind_safe (r : ResultsObj) (s : Store)
    (mu : CallerMutation) (h : isAttrRebind mu = true) :
    (applyMutation mu (copyShallow r) s).2 = s ∧
    viewRow r (applyMutation mu (copyShallow r) s).2 = viewRow r s := by
  cases mu with
  | setRowRef a => exact ⟨rfl, rfl⟩
  | setError q => exact ⟨rfl, rfl⟩
  | writeRow i v => simp [isAttrRebind] at h

/-- Witness for C5: rebinding the `error` attribute of the returned
copy leaves the heap untouched. -/
theorem c5_shallow_copy_attr_rebind_safe_witness :
    isAttrRebind (.setError none) = true ∧
    (applyMutation (.setError none) (copyShallow ⟨0, 1, some 5⟩)
      store0C5).2 = store0C5 :=
  ⟨rfl, (c5_shallow_copy_attr_rebind_safe ⟨0, 1, some 5⟩ store0C5
    (.setError none) rfl).1⟩

/-! ## Kmeans constructor validation (C2)

`cgc/kmeans.py, Kmeans.__init__`.  Only the shape of `Z` matters for
the checks, so `Z` is represented by its shape.  The float literal
`0.8` of the warning threshold is modelled as the exact rational `4/5`
(the two agree at every integer comparison arising here). -/

/-- `max(l)` for the nonempty lists the code applies it to (0 on `[]`). -/
def listMaxD (l : List ℕ) : ℕ := l.foldr max 0

/-- `min(l)` for the nonempty lists the code applies it to (0 on `[]`). -/
def listMinD : List ℕ → ℕ
  | [] => 0
  | x :: xs => xs.foldr min x

/-- Outcome of `Kmeans.__init__`: a raised `ValueError`, or successful
construction with a flag recording whether the large-`k` warning was
logged. -/
inductive KmeansInitOutcome where
  | valueError : KmeansInitOutcome
  | ok : Bool → KmeansInitOutcome
deriving DecidableEq

/-- The validation sequence of `Kmeans.__init__` (given an explicit
`k_range`, which the constructor sorts): dimension match, shape match,
labels below the cluster counts, `min(k_range) >= 2`,
`max(k_range) <= max_k` with `max_k = np.prod(nclusters)`, and the
warning when `max(k_range) > max_k * 0.8`. -/
def kmeansInitCheck (zshape : List ℕ) (clusters : List (List ℕ))
    (nclusters : List ℕ) (k_range : List ℕ) : KmeansInitOutcome :=
  let max_k := nclusters.prod
  let kr := k_range.insertionSort (· ≤ ·)
  if zshape.length ≠ clusters.length then .valueError
  else if zshape ≠ clusters.map List.length then .valueError
  else if ¬ (clusters.zip nclusters).all (fun p => listMaxD p.1 < p.2) then
    .valueError
  else if ¬ 2 ≤ listMinD kr then .valueError
  else if max_k < listMaxD kr then .valueError
  else .ok (decide ((max_k : ℚ) * (4/5) < (listMaxD kr : ℚ)))

/-- Number of populated (non-empty) blocks: the product over the axes
of the number of distinct labels actually used on that axis. -/
def populatedBlocks (clusters : List (List ℕ)) : ℕ :=
  (clusters.map fun cl => cl.dedup.length).prod

/-- C2 (code evaluated at the failing input): for a 5×4 matrix with row
labels `[0,0,1,1,1]`, column labels `[0,0,1,1]` and
`nclusters = [3,2]` — so 4 populated blocks but
`max_k = np.prod(nclusters) = 6` — the requested `k_range = [2,5]`
passes construction (with only the large-`k` warning), although the
largest requested `k = 5` exceeds the number of populated blocks, which
both the claim and the code's own docstring and error message
("the number of (non-empty) clusters") give as the bound. -/
theorem c2_validation_uses_total_not_populated_blocks :
    kmeansInitCheck [5, 4] [[0, 0, 1, 1, 1], [0, 0, 1, 1]] [3, 2] [2, 5]
      = .ok true ∧
    populatedBlocks [[0, 0, 1, 1, 1], [0, 0, 1, 1]] = 4 ∧
    4 < listMaxD [2, 5] := by
  refine ⟨?_, by decide, by decide⟩
  norm_num [kmeansInitCheck, listMaxD, listMinD, List.insertionSort,
    List.orderedInsert, List.prod]

/-! ## Kmeans k-value selection (C8)

`Kmeans.__init__` sorts `k_range` (`self.k_range.sort()`); `compute`
collects one silhouette score per `k` and takes `np.argmax`.  The
external KMeans-plus-silhouette capability is modelled, per the spec's
boundary contract, as a score oracle `score : ℕ → ℚ` fixed by the block
statistics. -/

/-- `np.argmax` over a list: index and value of the FIRST maximum. -/
def argmaxFirst : List ℚ → ℕ × ℚ
  | [] => (0, 0)
  | [x] => (0, x)
  | x :: y :: xs =>
      let p := argmaxFirst (y :: xs)
      if x < p.2 then (p.1 + 1, p.2) else (0, x)

/-- The selection performed by `Kmeans.compute`:
`idx_k = np.argmax(silhouette_avg_list); k_value = k_range[idx_k]`
over the sorted `k_range`. -/
def selectKValue (score : ℕ → ℚ) (k_range : List ℕ) : ℕ :=
  let kr := k_range.insertionSort (· ≤ ·)
  kr.getD (argmaxFirst (kr.map score)).1 0

theorem argmaxFirst_spec : ∀ l : List ℚ, l ≠ [] →
    (argmaxFirst l).1 < l.length ∧
    l.getD (argmaxFirst l).1 0 = (argmaxFirst l).2 ∧
    (∀ y ∈ l, y ≤ (argmaxFirst l).2) ∧
    (∀ i, i < (argmaxFirst l).1 → l.getD i 0 < (argmaxFirst l).2)
  | [], h => absurd rfl h
  | [x], _ => by
      refine ⟨by simp [argmaxFirst], by simp [argmaxFirst], ?_, ?_⟩
      · intro y hy
        rw [List.mem_singleton] at hy
        simp [argmaxFirst, hy]
      · intro i hi
        simp [argmaxFirst] at hi
  | x :: y :: xs, _ => by
      obtain ⟨ih1, ih2, ih3, ih4⟩ := argmaxFirst_spec (y :: xs) (by simp)
      by_cases h : x < (argmaxFirst (y :: xs)).2
      · refine ⟨?_, ?_, ?_, ?_⟩
        · simp only [argmaxFirst, h, if_true]
          simpa using Nat.succ_lt_succ ih1
        · simpa only [argmaxFirst, h, if_true, List.getD_cons_succ] using ih2
        · intro z hz
          rcases List.mem_cons.mp hz with rfl | hz2
          · simp only [argmaxFirst, h, if_true]
            exact le_of_lt h
          · simp only [argmaxFirst, h, if_true]
            exact ih3 z hz2
        · intro i hi
          simp only [argmaxFirst, h, if_true] at hi ⊢
          match i with
          | 0 => simpa using h
          | j + 1 =>
              rw [List.getD_cons_succ]
              exact ih4 j (Nat.lt_of_succ_lt_succ hi)
      · refine ⟨by simp [argmaxFirst, h], by simp [argmaxFirst, h], ?_, ?_⟩
        · intro z hz
          rcases List.mem_cons.mp hz with rfl | hz2
          · simp [argmaxFirst, h]
          · simp only [argmaxFirst, h, if_false]
            exact le_trans (ih3 z hz2) (le_of_not_lt h)
        · intro i hi
          simp [argmaxFirst, h] at hi

theorem getD_map_score (kr : List ℕ) (score : ℕ → ℚ) (i : ℕ)
    (hi : i < kr.length) :
    (kr.map score).getD i 0 = score (kr.getD i 0) := by
  rw [List.getD_eq_getElem (kr.map score) 0 (by simpa using hi),
    List.getD_eq_getElem kr 0 hi, List.getElem_map]

/-- C8: `Kmeans.compute` selects a `k` in `k_range` whose silhouette
score is maximal; among tied maximizers it picks the smallest `k`; and
since the constructor sorts `k_range`, the chosen `k_value` does not
depend on the order in which `k_range` is supplied. -/
theorem c8_k_selection (score : ℕ → ℚ) (k_range : List ℕ)
    (hne : k_range ≠ []) :
    selectKValue score k_range ∈ k_range ∧
    (∀ k ∈ k_range, score k ≤ score (selectKValue score k_range)) ∧
    (∀ k ∈ k_range, score k = score (selectKValue score k_range) →
      selectKValue score k_range ≤ k) ∧
    (∀ l2 : List ℕ, k_range.Perm l2 →
      selectKValue score l2 = selectKValue score k_range) := by
  set kr := k_range.insertionSort (· ≤ ·) with hkr
  have hperm : kr.Perm k_range := List.perm_insertionSort (· ≤ ·) k_range
  have hsorted : kr.Sorted (· ≤ ·) := List.sorted_insertionSort (· ≤ ·) k_range
  have hkrne : kr ≠ [] := by
    intro hemp
    rw [hemp] at hperm
    exact hne (List.Perm.eq_nil hperm.symm)
  have hmapne : kr.map score ≠ [] := by
    simpa using hkrne
  obtain ⟨a1, a2, a3, a4⟩ := argmaxFirst_spec (kr.map score) hmapne
  have hlen : (argmaxFirst (kr.map score)).1 < kr.length := by
    simpa using a1
  have hsel : selectKValue score k_range = kr.getD (argmaxFirst (kr.map score)).1 0 := rfl
  have hselmem : selectKValue score k_range ∈ kr := by
    rw [hsel, List.getD_eq_getElem kr 0 hlen]
    exact List.getElem_mem hlen
  have hscoresel : score (selectKValue score k_range) =
      (argmaxFirst (kr.map score)).2 := by
    rw [hsel, ← getD_map_score kr score _ hlen, a2]
  refine ⟨hperm.mem_iff.mp hselmem, ?_, ?_, ?_⟩
  · intro k hk
    rw [hscoresel]
    exact a3 (score k) (List.mem_map_of_mem score (hperm.mem_iff.mpr hk))
  · intro k hk hkmax
    obtain ⟨i, hi, hik⟩ := List.mem_iff_getElem.mp (hperm.mem_iff.mpr hk)
    by_cases hlt : i < (argmaxFirst (kr.map score)).1
    · exfalso
      have hsmall := a4 i (by simpa using hlt)
      rw [getD_map_score kr score i hi, List.getD_eq_getElem kr 0 hi, hik] at hsmall
      rw [hkmax, hscoresel] at hsmall
      exact lt_irrefl _ hsmall
    · have hle : (argmaxFirst (kr.map score)).1 ≤ i := le_of_not_lt hlt
      have hgd : kr.getD i 0 = k := by
        rw [List.getD_eq_getElem kr 0 hi, hik]
      rw [hsel]
      rcases lt_or_eq_of_le hle with hlt2 | heq
      · rw [← hgd, List.getD_eq_getElem kr 0 hlen, List.getD_eq_getElem kr 0 hi]
        exact (List.pairwise_iff_getElem.mp hsorted) _ _ hlen hi hlt2
      · rw [heq]
        exact le_of_eq hgd
  · intro l2 hp
    have hss : l2.insertionSort (· ≤ ·) = kr := by
      refine List.eq_of_perm_of_sorted ?_ (List.sorted_insertionSort (· ≤ ·) l2) hsorted
      exact (List.perm_insertionSort (· ≤ ·) l2).trans (hp.symm.trans hperm.symm)
    rw [selectKValue, hss]
    exact hsel.symm

/-- Witness for C8: the theorem applied to `k_range = [3, 2]` with a
constant score oracle (everything tied): the smallest `k = 2` is
chosen, and supplying `[2, 3]` instead gives the same `k_value`. -/
theorem c8_k_selection_witness :
    (([3, 2] : List ℕ) ≠ []) ∧
    selectKValue (fun _ => (1:ℚ)) [3, 2] ∈ ([3, 2] : List ℕ) ∧
    selectKValue (fun _ => (1:ℚ)) [2, 3] =
      selectKValue (fun _ => (1:ℚ)) [3, 2] := by
  have h := c8_k_selection (fun _ => (1:ℚ)) [3, 2] (by simp)
  exact ⟨by simp, h.1, h.2.2.2 [2, 3] (by decide)⟩

/-! ## Statistics normalization (C10)

`cgc/kmeans.py, Kmeans._compute_statistic_measures`, final block: the
six per-block statistics (one row per populated block — there is at
least one, hence `nb + 1` rows — after the NaN rows of unpopulated
blocks are filtered out) are min-max normalized with
`np.divide(..., out=np.zeros_like(...), where=(maximum - minimum) != 0)`,
over the `FP` model so that a division by zero would be visible. -/

/-- `np.max` along a cluster-block axis. -/
def maxFin {k : ℕ} (f : Fin (k + 1) → ℚ) : ℚ :=
  (List.finRange (k + 1)).foldl (fun acc i => max acc (f i)) (f 0)

/-- `stat_measures.min(axis=0)` entry `j`. -/
def statMin {nb : ℕ} (stat : Fin (nb + 1) → Fin 6 → ℚ) (j : Fin 6) : ℚ :=
  minFin fun i => stat i j

/-- `stat_measures.max(axis=0)` entry `j`. -/
def statMax {nb : ℕ} (stat : Fin (nb + 1) → Fin 6 → ℚ) (j : Fin 6) : ℚ :=
  maxFin fun i => stat i j

/-- The guarded elementwise normalization:
`np.divide(stat - minimum, maximum - minimum, out=zeros, where=(maximum - minimum) != 0)`. -/
def statNormalize {nb : ℕ} (stat : Fin (nb + 1) → Fin 6 → ℚ) (i : Fin (nb + 1))
    (j : Fin 6) : FP :=
  if statMax stat j - statMin stat j ≠ 0 then
    FP.div (FP.num (stat i j - statMin stat j))
      (FP.num (statMax stat j - statMin stat j))
  else FP.num 0

/-- C10: the normalized statistics contain no NaN and no Inf for every
finite input, and any statistic column with zero range (maximum equal
to minimum over all populated blocks) is mapped to 0 for every block
instead of triggering a division by zero. -/
theorem c10_normalization_no_nan_inf {nb : ℕ}
    (stat : Fin (nb + 1) → Fin 6 → ℚ) (i : Fin (nb + 1)) (j : Fin 6) :
    (statNormalize stat i j).isFinite ∧
    (statMax stat j = statMin stat j → statNormalize stat i j = FP.num 0) := by
  constructor
  · rw [statNormalize]
    by_cases h : statMax stat j - statMin stat j ≠ 0
    · rw [if_pos h]
      simp only [FP.div, if_neg h]
      trivial
    · rw [if_neg h]
      trivial
  · intro h
    rw [statNormalize, if_neg (by rw [h, sub_self]; simp)]

/-- Witness for C10: a single populated block with constant statistics
(zero range in every column) normalizes to 0. -/
theorem c10_normalization_witness :
    statMax (fun _ _ => (5:ℚ) : Fin 1 → Fin 6 → ℚ) 0 =
      statMin (fun _ _ => (5:ℚ) : Fin 1 → Fin 6 → ℚ) 0 ∧
    statNormalize (fun _ _ => (5:ℚ) : Fin 1 → Fin 6 → ℚ) 0 0 = FP.num 0 := by
  have hz : statMax (fun _ _ => (5:ℚ) : Fin 1 → Fin 6 → ℚ) 0 =
      statMin (fun _ _ => (5:ℚ) : Fin 1 → Fin 6 → ℚ) 0 := by
    norm_num [statMax, statMin, maxFin, minFin, List.finRange, List.range,
      List.range.loop]
  exact ⟨hz, (c10_normalization_no_nan_inf (fun _ _ => (5:ℚ)) 0 0).2 hz⟩

/-! ## Refined cluster averages (C9)

`cgc/kmeans.py, Kmeans.compute`, final part, instantiated at rank 2
(the rank of the claim's scenario): the boolean mask of populated
cluster combinations (`np.meshgrid` of the `np.unique` labels), the
assignment `km_labels[mask] = labels` of the opaque k-means labels to
the populated cells in row-major order (NaN = `none` elsewhere), and
the per-refined-group averaging loop over `range(k_value)`. -/

section KmeansAverages

variable {m n nr nc : ℕ}

/-- A (row-cluster, column-cluster) combination is populated when both
labels occur in the data. -/
def populatedCell (rowLab : Fin m → Fin nr) (colLab : Fin n → Fin nc)
    (i : Fin nr) (j : Fin nc) : Prop :=
  (∃ r, rowLab r = i) ∧ (∃ c, colLab c = j)

instance (rowLab : Fin m → Fin nr) (colLab : Fin n → Fin nc) (i : Fin nr)
    (j : Fin nc) : Decidable (populatedCell rowLab colLab i j) :=
  inferInstanceAs (Decidable ((∃ r, rowLab r = i) ∧ ∃ c, colLab c = j))

/-- The populated cells of the cluster grid in row-major order: the
`True` positions of the mask. -/
def popCells (rowLab : Fin m → Fin nr) (colLab : Fin n → Fin nc) :
    List (Fin nr × Fin nc) :=
  (pairList nr nc).filter fun p => decide (populatedCell rowLab colLab p.1 p.2)

/-- `km_labels`: `np.full(nclusters, np.nan)` overwritten at the masked
positions by the k-means `labels`, in row-major order. -/
def kmLabels (rowLab : Fin m → Fin nr) (colLab : Fin n → Fin nc)
    (labels : List ℕ) (i : Fin nr) (j : Fin nc) : Option ℕ :=
  ((popCells rowLab colLab).zip labels |>.find?
    fun q => decide (q.1 = (i, j))).map Prod.snd

/-- Sum of the data elements of one co-cluster block
(`self.Z[np.meshgrid(*idx)].sum()` for one `cluster` of the loop). -/
def blockSum (Z : Fin m → Fin n → ℚ) (rowLab : Fin m → Fin nr)
    (colLab : Fin n → Fin nc) (i : Fin nr) (j : Fin nc) : ℚ :=
  ∑ r ∈ Finset.univ.filter fun r => rowLab r = i,
    ∑ c ∈ Finset.univ.filter fun c => colLab c = j, Z r c

/-- Element count of one block (`np.prod([len(idx_x) for idx_x in idx])`). -/
def blockCount (rowLab : Fin m → Fin nr) (colLab : Fin n → Fin nc)
    (i : Fin nr) (j : Fin nc) : ℕ :=
  cnt rowLab i * cnt colLab j

/-- `label_sum` accumulated over `np.where(km_labels == label)`
(order-independent rendering of the source loop). -/
def labelSum (Z : Fin m → Fin n → ℚ) (rowLab : Fin m → Fin nr)
    (colLab : Fin n → Fin nc) (labels : List ℕ) (L : ℕ) : ℚ :=
  ∑ p ∈ Finset.univ.filter
      (fun p : Fin nr × Fin nc => kmLabels rowLab colLab labels p.1 p.2 = some L),
    blockSum Z rowLab colLab p.1 p.2

/-- `label_n_elements` accumulated over the same loop. -/
def labelCount (rowLab : Fin m → Fin nr) (colLab : Fin n → Fin nc)
    (labels : List ℕ) (L : ℕ) : ℕ :=
  ∑ p ∈ Finset.univ.filter
      (fun p : Fin nr × Fin nc => kmLabels rowLab colLab labels p.1 p.2 = some L),
    blockCount rowLab colLab p.1 p.2

/-- One pass of `for label in range(self.results.k_value)`:
`cluster_averages[np.where(km_labels == label)] = label_sum / label_n_elements`. -/
def cavgUpd (Z : Fin m → Fin n → ℚ) (rowLab : Fin m → Fin nr)
    (colLab : Fin n → Fin nc) (labels : List ℕ)
    (g : Fin nr → Fin nc → Option ℚ) (L : ℕ) : Fin nr → Fin nc → Option ℚ :=
  fun i j =>
    if kmLabels rowLab colLab labels i j = some L then
      some (labelSum Z rowLab colLab labels L /
        (labelCount rowLab colLab labels L : ℚ))
    else g i j

/-- `cluster_averages`: `np.full(nclusters, np.nan)` then the averaging
loop; NaN is `none`. -/
def clusterAverages (Z : Fin m → Fin n → ℚ) (rowLab : Fin m → Fin nr)
    (colLab : Fin n → Fin nc) (labels : List ℕ) (k : ℕ) :
    Fin nr → Fin nc → Option ℚ :=
  (List.range k).foldl (cavgUpd Z rowLab colLab labels) fun _ _ => none

/-- The data elements lying in any block assigned to refined group `L`
(the element set the claim's "arithmetic mean" ranges over). -/
def elemGroupFilter (rowLab : Fin m → Fin nr) (colLab : Fin n → Fin nc)
    (labels : List ℕ) (L : ℕ) : Finset (Fin m × Fin n) :=
  Finset.univ.filter fun t =>
    kmLabels rowLab colLab labels (rowLab t.1) (colLab t.2) = some L

/-- Sum of all original data elements of refined group `L`. -/
def groupElemsSum (Z : Fin m → Fin n → ℚ) (rowLab : Fin m → Fin nr)
    (colLab : Fin n → Fin nc) (labels : List ℕ) (L : ℕ) : ℚ :=
  ∑ t ∈ elemGroupFilter rowLab colLab labels L, Z t.1 t.2

/-- Number of original data elements of refined group `L`. -/
def groupElemsCount (rowLab : Fin m → Fin nr) (colLab : Fin n → Fin nc)
    (labels : List ℕ) (L : ℕ) : ℕ :=
  (elemGroupFilter rowLab colLab labels L).card

theorem zip_fst_exists {α β : Type} :
    ∀ (l1 : List α) (l2 : List β), l1.length = l2.length →
      ∀ a ∈ l1, ∃ b, (a, b) ∈ l1.zip l2
  | [], _, _, a, ha => absurd ha (by simp)
  | _ :: _, [], h, _, _ => by simp at h
  | x :: xs, y :: ys, h, a, ha => by
      rcases List.mem_cons.mp ha with rfl | ha2
      · exact ⟨y, by simp⟩
      · obtain ⟨b, hb⟩ := zip_fst_exists xs ys (by simpa using h) a ha2
        exact ⟨b, by simp [List.zip_cons_cons, hb]⟩

theorem mem_pairList {b c : ℕ} (p : Fin b × Fin c) : p ∈ pairList b c := by
  obtain ⟨p1, p2⟩ := p
  simp only [pairList, List.mem_flatMap, List.mem_map]
  exact ⟨p1, List.mem_finRange p1, p2, List.mem_finRange p2, rfl⟩

theorem mem_popCells_iff (rowLab : Fin m → Fin nr) (colLab : Fin n → Fin nc)
    (p : Fin nr × Fin nc) :
    p ∈ popCells rowLab colLab ↔ populatedCell rowLab colLab p.1 p.2 := by
  simp [popCells, List.mem_filter, mem_pairList]

theorem kmLabels_eq_none_iff (rowLab : Fin m → Fin nr)
    (colLab : Fin n → Fin nc) (labels : List ℕ)
    (hlen : (popCells rowLab colLab).length = labels.length)
    (i : Fin nr) (j : Fin nc) :
    kmLabels rowLab colLab labels i j = none ↔
      ¬ populatedCell rowLab colLab i j := by
  rw [kmLabels, Option.map_eq_none', List.find?_eq_none]
  constructor
  · intro hall hpop
    obtain ⟨b, hb⟩ := zip_fst_exists _ _ hlen (i, j)
      ((mem_popCells_iff rowLab colLab (i, j)).mpr hpop)
    exact absurd (by simp) (hall _ hb)
  · rintro hnp ⟨q1, q2⟩ hq
    have h1 := (List.of_mem_zip hq).1
    simp only [decide_eq_true_eq]
    intro hq1
    rw [hq1] at h1
    exact hnp ((mem_popCells_iff rowLab colLab (i, j)).mp h1)

theorem kmLabels_some_mem (rowLab : Fin m → Fin nr)
    (colLab : Fin n → Fin nc) (labels : List ℕ) (i : Fin nr) (j : Fin nc)
    (L : ℕ) (h : kmLabels rowLab colLab labels i j = some L) :
    populatedCell rowLab colLab i j ∧ L ∈ labels := by
  rw [kmLabels] at h
  obtain ⟨q, hq, hq2⟩ := Option.map_eq_some'.mp h
  obtain ⟨q1, q2⟩ := q
  have hmem := List.mem_of_find?_eq_some hq
  have hpred := List.find?_some hq
  simp only [decide_eq_true_eq] at hpred
  obtain ⟨hin, hlab⟩ := List.of_mem_zip hmem
  rw [hpred] at hin
  refine ⟨(mem_popCells_iff rowLab colLab (i, j)).mp hin, ?_⟩
  rw [← hq2]
  exact hlab

theorem clusterAverages_foldl (Z : Fin m → Fin n → ℚ)
    (rowLab : Fin m → Fin nr) (colLab : Fin n → Fin nc) (labels : List ℕ)
    (l : List ℕ) (g0 : Fin nr → Fin nc → Option ℚ) (i : Fin nr) (j : Fin nc) :
    (l.foldl (cavgUpd Z rowLab colLab labels) g0) i j =
      match kmLabels rowLab colLab labels i j with
      | none => g0 i j
      | some L =>
          if L ∈ l then
            some (labelSum Z rowLab colLab labels L /
              (labelCount rowLab colLab labels L : ℚ))
          else g0 i j := by
  induction l generalizing g0 with
  | nil => cases h : kmLabels rowLab colLab labels i j <;> simp
  | cons a l ih =>
      rw [List.foldl_cons, ih]
      cases h : kmLabels rowLab colLab labels i j with
      | none => simp [cavgUpd, h]
      | some L =>
          by_cases hL : L = a
          · subst hL
            simp [cavgUpd, h, List.mem_cons]
          · by_cases hl : L ∈ l
            · simp [hl, List.mem_cons, hL]
            · simp [cavgUpd, h, hl, List.mem_cons, hL]

theorem blockFilter_product (rowLab : Fin m → Fin nr)
    (colLab : Fin n → Fin nc) (i : Fin nr) (j : Fin nc) :
    (Finset.univ.filter fun t : Fin m × Fin n =>
      rowLab t.1 = i ∧ colLab t.2 = j) =
    (Finset.univ.filter fun r => rowLab r = i) ×ˢ
      (Finset.univ.filter fun c => colLab c = j) := by
  have h1 : (Finset.univ : Finset (Fin m × Fin n)) =
      Finset.univ ×ˢ Finset.univ := by simp
  rw [h1, Finset.filter_product (fun r => rowLab r = i) (fun c => colLab c = j)]

theorem blockSum_eq_filter (Z : Fin m → Fin n → ℚ) (rowLab : Fin m → Fin nr)
    (colLab : Fin n → Fin nc) (i : Fin nr) (j : Fin nc) :
    blockSum Z rowLab colLab i j =
      ∑ t ∈ Finset.univ.filter
        (fun t : Fin m × Fin n => rowLab t.1 = i ∧ colLab t.2 = j),
        Z t.1 t.2 := by
  rw [blockFilter_product, Finset.sum_product]
  rfl

theorem blockCount_eq_filter (rowLab : Fin m → Fin nr)
    (colLab : Fin n → Fin nc) (i : Fin nr) (j : Fin nc) :
    blockCount rowLab colLab i j =
      (Finset.univ.filter
        (fun t : Fin m × Fin n => rowLab t.1 = i ∧ colLab t.2 = j)).card := by
  rw [blockFilter_product, Finset.card_product]
  rfl

theorem elemGroupFilter_eq_biUnion (rowLab : Fin m → Fin nr)
    (colLab : Fin n → Fin nc) (labels : List ℕ) (L : ℕ) :
    elemGroupFilter rowLab colLab labels L =
      (Finset.univ.filter fun p : Fin nr × Fin nc =>
        kmLabels rowLab colLab labels p.1 p.2 = some L).biUnion
        (fun p => Finset.univ.filter fun t : Fin m × Fin n =>
          rowLab t.1 = p.1 ∧ colLab t.2 = p.2) := by
  ext t
  simp only [elemGroupFilter, Finset.mem_biUnion, Finset.mem_filter,
    Finset.mem_univ, true_and]
  constructor
  · intro h
    exact ⟨(rowLab t.1, colLab t.2), h, rfl, rfl⟩
  · rintro ⟨p, hp, h1, h2⟩
    rw [h1, h2]
    exact hp

theorem blockFamily_disjoint (rowLab : Fin m → Fin nr)
    (colLab : Fin n → Fin nc) (labels : List ℕ) (L : ℕ) :
    Set.PairwiseDisjoint
      (↑(Finset.univ.filter fun p : Fin nr × Fin nc =>
        kmLabels rowLab colLab labels p.1 p.2 = some L))
      (fun p : Fin nr × Fin nc => Finset.univ.filter
        fun t : Fin m × Fin n => rowLab t.1 = p.1 ∧ colLab t.2 = p.2) := by
  intro p _ p2 _ hne
  rw [Function.onFun, Finset.disjoint_left]
  intro t ht ht2
  simp only [Finset.mem_filter, Finset.mem_univ, true_and] at ht ht2
  exact hne (Prod.ext (ht.1.symm.trans ht2.1) (ht.2.symm.trans ht2.2))

theorem labelSum_eq_groupElemsSum (Z : Fin m → Fin n → ℚ)
    (rowLab : Fin m → Fin nr) (colLab : Fin n → Fin nc) (labels : List ℕ)
    (L : ℕ) :
    labelSum Z rowLab colLab labels L =
      groupElemsSum Z rowLab colLab labels L := by
  rw [groupElemsSum, elemGroupFilter_eq_biUnion,
    Finset.sum_biUnion (blockFamily_disjoint rowLab colLab labels L),
    labelSum]
  exact Finset.sum_congr rfl fun p _ => blockSum_eq_filter Z rowLab colLab p.1 p.2

theorem labelCount_eq_groupElemsCount (rowLab : Fin m → Fin nr)
    (colLab : Fin n → Fin nc) (labels : List ℕ) (L : ℕ) :
    labelCount rowLab colLab labels L =
      groupElemsCount rowLab colLab labels L := by
  rw [groupElemsCount, elemGroupFilter_eq_biUnion,
    Finset.card_biUnion (fun p hp p2 hp2 hne =>
      blockFamily_disjoint rowLab colLab labels L hp hp2 hne),
    labelCount]
  exact Finset.sum_congr rfl fun p _ => blockCount_eq_filter rowLab colLab p.1 p.2

/-- C9: in the refined `cluster_averages` grid, every cell at an
unpopulated combination of axis clusters holds the no-value marker
(`none`, modelling NaN — not zero), and every populated cell holds the
arithmetic mean of all original data elements belonging to any block
assigned to that cell's refined group. -/
theorem c9_refined_cluster_averages (Z : Fin m → Fin n → ℚ)
    (rowLab : Fin m → Fin nr) (colLab : Fin n → Fin nc) (labels : List ℕ)
    (k : ℕ) (hlen : (popCells rowLab colLab).length = labels.length)
    (hk : ∀ L ∈ labels, L < k) (i : Fin nr) (j : Fin nc) :
    (¬ populatedCell rowLab colLab i j →
      clusterAverages Z rowLab colLab labels k i j = none) ∧
    (populatedCell rowLab colLab i j →
      ∃ L, kmLabels rowLab colLab labels i j = some L ∧
        clusterAverages Z rowLab colLab labels k i j =
          some (groupElemsSum Z rowLab colLab labels L /
            (groupElemsCount rowLab colLab labels L : ℚ))) := by
  have heval := clusterAverages_foldl Z rowLab colLab labels (List.range k)
    (fun _ _ => none) i j
  constructor
  · intro hnp
    have h0 : kmLabels rowLab colLab labels i j = none :=
      (kmLabels_eq_none_iff rowLab colLab labels hlen i j).mpr hnp
    rw [clusterAverages, heval, h0]
  · intro hpop
    cases h0 : kmLabels rowLab colLab labels i j with
    | none =>
        exact absurd ((kmLabels_eq_none_iff rowLab colLab labels hlen i j).mp h0)
          (not_not_intro hpop)
    | some L =>
        have hLk : L < k :=
          hk L (kmLabels_some_mem rowLab colLab labels i j L h0).2
        refine ⟨L, rfl, ?_⟩
        rw [clusterAverages, heval, h0]
        simp only [List.mem_range.mpr hLk, if_true,
          labelSum_eq_groupElemsSum, labelCount_eq_groupElemsCount]

end KmeansAverages

/-- The 5×4 matrix of the refinement scenario (tests/test_kmeans.py):
two populated row clusters out of three, two populated column clusters. -/
def Z9 : Fin 5 → Fin 4 → ℚ := fun r c =>
  if (r : ℕ) < 2 then (if (c : ℕ) < 2 then 0 else 1)
  else (if (c : ℕ) < 2 then 1 else 0)

/-- Row labels `[0, 0, 1, 1, 1]` into 3 row clusters (cluster 2 empty). -/
def rowLab9 : Fin 5 → Fin 3 := fun r => if (r : ℕ) < 2 then 0 else 1

/-- Column labels `[0, 0, 1, 1]` into 2 column clusters. -/
def colLab9 : Fin 4 → Fin 2 := fun c => if (c : ℕ) < 2 then 0 else 1

/-- K-means labels of the four populated blocks, row-major. -/
def labels9 : List ℕ := [0, 1, 1, 0]

/-- Witness for C9: the theorem applied to the 5×4 scenario; the cell of
the unpopulated row cluster 2 holds the no-value marker. -/
theorem c9_refined_cluster_averages_witness :
    ((popCells rowLab9 colLab9).length = labels9.length) ∧
    (∀ L ∈ labels9, L < 2) ∧
    clusterAverages Z9 rowLab9 colLab9 labels9 2 2 0 = none := by
  have h := c9_refined_cluster_averages Z9 rowLab9 colLab9 labels9 2
    (by decide) (by decide) 2 0
  exact ⟨by decide, by decide, h.1 (by decide)⟩

end Cgc
